import Mathlib

/-!
Verification of the HAE (Hashed Aggregation Exponents) BLS layer of the
bgls repository, file `bgls/blsHAE.go`.

The file under verification contains four functions:

* `hashPubKeysToExponents` — hashes the ordered public-key sequence with a
  blake2b XOF (output length `16 * n`, empty key), feeding the uncompressed
  marshal of each key in order, then reads the output in 16-byte chunks and
  turns each chunk into a `big.Int` via `SetBytes` (big-endian, unsigned).
* `AggregateSignaturesWithHAE` — returns Go `nil` when the lengths of the
  signature and public-key slices disagree, otherwise scales `sigs[i]` by
  exponent `t[i]` and combines the scaled signatures with `AggregateG1`.
* `VerifyAggregateSignatureWithHAE` — scales each public key by its exponent
  into a freshly allocated slice `newkeys` and delegates to
  `verifyAggSig(curve, aggsig, newkeys, msgs, true)`.
* `VerifyMultiSignatureWithHAE` — scales the public keys writing the results
  back into the caller-supplied slice (`pubkeys[i] = pubkeys[i].Mul(t[i])`)
  and delegates to `VerifyMultiSignature`.

The curve arithmetic (`Point1`, `Point2`, `Mul`, `MarshalUncompressed`), the
group aggregation `AggregateG1`, the plain verifiers `verifyAggSig` and
`VerifyMultiSignature`, and the blake2b XOF are collaborators that live
outside the verified source file.  They are embedded abstractly: the `Curves`
structure below bundles them as uninterpreted operations, and the parts whose
behaviour decides a claim (`AggregateG1`, `verifyAggSig`,
`VerifyMultiSignature`) are modelled from the specification's description of
the plain BLS primitives.

Go slices are embedded as Lean lists.  Functions that in Go may write to a
caller-supplied slice return, next to their result, the final contents of
that slice, so aliasing effects on the caller's data are explicit.
-/

namespace Bgls

/-- A Go `byte`: an unsigned 8-bit value. -/
abbrev Byte := Fin 256

/-- The external collaborators used by `blsHAE.go`, bundled.  `G1` is the
signature group (`Point1`), `G2` the public-key group (`Point2`), `GT` the
pairing target group.  `xof olen input pos` is the byte at position `pos` of
the blake2b XOF stream configured for output length `olen` (the configured
length is part of the blake2b parameter block, hence an argument) after
absorbing `input`; `pair` is the bilinear pairing, `powGT` the target-group
exponentiation, and `eqGT` the (decidable) target-group equality test used
by the verifiers. -/
structure Curves (G1 G2 GT : Type) where
  addG1 : G1 → G1 → G1
  zeroG1 : G1
  addG2 : G2 → G2 → G2
  zeroG2 : G2
  mulG1 : G1 → ℤ → G1
  mulG2 : G2 → ℤ → G2
  marshalUncompressed : G2 → List Byte
  xof : ℕ → List Byte → ℕ → Byte
  hashToG1 : List Byte → G1
  g2gen : G2
  pair : G1 → G2 → GT
  mulGT : GT → GT → GT
  oneGT : GT
  powGT : GT → ℤ → GT
  eqGT : GT → GT → Bool

variable {G1 G2 GT : Type}

/-- Go `new(big.Int).SetBytes(bs)`: interprets a byte slice as an unsigned
big-endian integer. -/
def bigIntSetBytes (bs : List Byte) : ℤ :=
  ((bs.foldl (fun a b => a * 256 + b.val) 0 : ℕ) : ℤ)

/-- Embedding of `hashPubKeysToExponents` from `blsHAE.go`.  A blake2b XOF
is created with output length `16 * len(pubkeys)` and empty key; the
uncompressed marshal of each public key is written in order (incremental
`Write` calls absorb the concatenation of their arguments, with no
separators); then for each index `i` in order, 16 bytes are read from the
output stream and converted with `big.Int.SetBytes`. -/
def hashPubKeysToExponents (C : Curves G1 G2 GT) (pubkeys : List G2) : List ℤ :=
  let stream := C.xof (16 * pubkeys.length) ((pubkeys.map C.marshalUncompressed).flatten)
  (List.range pubkeys.length).map fun i =>
    bigIntSetBytes ((List.range 16).map fun j => stream (16 * i + j))

/-- Modelled from the spec: `AggregateG1` (repository code outside the
verified source file) combines signatures "via group aggregation
(associative, commutative sum in the signature group)". -/
def AggregateG1 (C : Curves G1 G2 GT) (sigs : List G1) : G1 :=
  sigs.foldr C.addG1 C.zeroG1

/-- Modelled from the spec: the length/pairing core of the plain aggregate
verifier — it "checks a single combined pairing equation across all
(key, message) pairs and returns true iff it holds exactly", with a length
mismatch treated as failure. -/
def verifyAggSigCore (C : Curves G1 G2 GT) (aggsig : G1) (keys : List G2)
    (msgs : List (List Byte)) : Bool :=
  if keys.length = msgs.length then
    C.eqGT (C.pair aggsig C.g2gen)
      ((List.zipWith (fun k m => C.pair (C.hashToG1 m) k) keys msgs).foldr
        C.mulGT C.oneGT)
  else false

/-- Modelled from the spec: `verifyAggSig` (repository code outside the
verified source file), the plain aggregate-signature verifier.  Its final
boolean flag permits duplicate messages; when the flag is false an input
with two equal messages is rejected outright. -/
def verifyAggSig (C : Curves G1 G2 GT) (aggsig : G1) (keys : List G2)
    (msgs : List (List Byte)) (allowDuplicates : Bool) : Bool :=
  if !allowDuplicates && decide (¬ msgs.Nodup) then false
  else verifyAggSigCore C aggsig keys msgs

/-- Modelled from the spec: `VerifyMultiSignature` (repository code outside
the verified source file) performs "one combined pairing check against the
sum of scaled keys" for a single shared message. -/
def VerifyMultiSignature (C : Curves G1 G2 GT) (aggsig : G1) (keys : List G2)
    (msg : List Byte) : Bool :=
  C.eqGT (C.pair aggsig C.g2gen)
    (C.pair (C.hashToG1 msg) (keys.foldr C.addG2 C.zeroG2))

/-- Embedding of `AggregateSignaturesWithHAE` from `blsHAE.go`.  Go returns
the untyped `nil` `Point1` when `len(pubkeys) != len(sigs)`; the embedding
returns `none` for that `nil`.  Otherwise exponents are derived from the
public keys, `newsigs[i] = sigs[i].Mul(t[i])` (the loop over
`i < len(pubkeys)` with `len(sigs) = len(pubkeys)` and
`len(t) = len(pubkeys)` is the pointwise `zipWith`), and the scaled
signatures are combined with `AggregateG1`. -/
def AggregateSignaturesWithHAE (C : Curves G1 G2 GT) (sigs : List G1)
    (pubkeys : List G2) : Option G1 :=
  if pubkeys.length ≠ sigs.length then none
  else
    let t := hashPubKeysToExponents C pubkeys
    let newsigs := List.zipWith C.mulG1 sigs t
    some (AggregateG1 C newsigs)

/-- Embedding of `VerifyAggregateSignatureWithHAE` from `blsHAE.go`.  The
scaled keys are written into the freshly allocated slice `newkeys`
(`newkeys := make([]Point2, len(pubkeys))`); no statement writes to the
caller's `pubkeys` slice.  The second component of the result is the final
contents of the caller's `pubkeys` slice, which the function leaves intact. -/
def VerifyAggregateSignatureWithHAE (C : Curves G1 G2 GT) (aggsig : G1)
    (pubkeys : List G2) (msgs : List (List Byte)) : Bool × List G2 :=
  let t := hashPubKeysToExponents C pubkeys
  let newkeys := List.zipWith C.mulG2 pubkeys t
  (verifyAggSig C aggsig newkeys msgs true, pubkeys)

/-- Embedding of `VerifyMultiSignatureWithHAE` from `blsHAE.go`.  The Go loop
executes `pubkeys[i] = pubkeys[i].Mul(t[i])` for `i < len(pubkeys)`: each
entry is read before being overwritten and `len(t) = len(pubkeys)`, so after
the loop the caller's slice holds the pointwise scaling
`zipWith Mul pubkeys t`, which is also what is passed to
`VerifyMultiSignature`.  The second component of the result is the final
contents of the caller's `pubkeys` slice. -/
def VerifyMultiSignatureWithHAE (C : Curves G1 G2 GT) (aggsig : G1)
    (pubkeys : List G2) (msg : List Byte) : Bool × List G2 :=
  let t := hashPubKeysToExponents C pubkeys
  let pubkeysAfter := List.zipWith C.mulG2 pubkeys t
  (VerifyMultiSignature C aggsig pubkeysAfter msg, pubkeysAfter)

/-- Laws the external collaborators satisfy, per the spec's "already-correct
building blocks" assumption: bilinearity of the pairing with respect to the
group operations and scalar multiplications, and soundness of the
target-group equality test. -/
structure CurvesOk (C : Curves G1 G2 GT) : Prop where
  pair_addG1 : ∀ p q r, C.pair (C.addG1 p q) r = C.mulGT (C.pair p r) (C.pair q r)
  pair_zeroG1 : ∀ r, C.pair C.zeroG1 r = C.oneGT
  pair_mulG1 : ∀ p t r, C.pair (C.mulG1 p t) r = C.powGT (C.pair p r) t
  pair_mulG2 : ∀ p t r, C.pair p (C.mulG2 r t) = C.powGT (C.pair p r) t
  eqGT_iff : ∀ x y, C.eqGT x y = true ↔ x = y

/-- A concrete instantiation of the collaborators over the integers, used to
evaluate the embedded functions on concrete inputs: group elements are their
discrete logarithms, the pairing is integer multiplication (so the target
group is additive), the XOF stream is identically zero and every message
hashes to the generator of `G1`. -/
def intModel : Curves ℤ ℤ ℤ where
  addG1 := (· + ·)
  zeroG1 := 0
  addG2 := (· + ·)
  zeroG2 := 0
  mulG1 := (· * ·)
  mulG2 := (· * ·)
  marshalUncompressed := fun _ => []
  xof := fun _ _ _ => 0
  hashToG1 := fun _ => 1
  g2gen := 1
  pair := (· * ·)
  mulGT := (· + ·)
  oneGT := 0
  powGT := fun x t => t * x
  eqGT := fun x y => decide (x = y)

/-- The integer model satisfies the bilinearity laws. -/
theorem intModelOk : CurvesOk intModel := by
  constructor <;> intros <;> simp [intModel] <;> ring

/-- The big-endian fold over bytes grows by a factor of at most 256 per
byte. -/
theorem foldl_byte_lt (bs : List Byte) : ∀ a : ℕ,
    bs.foldl (fun a b => a * 256 + b.val) a < (a + 1) * 256 ^ bs.length := by
  induction bs with
  | nil => intro a; simp
  | cons b bs ih =>
    intro a
    have hb : b.val < 256 := b.isLt
    have h2 : a * 256 + b.val + 1 ≤ (a + 1) * 256 := by omega
    calc (b :: bs).foldl (fun a b => a * 256 + b.val) a
        = bs.foldl (fun a b => a * 256 + b.val) (a * 256 + b.val) := rfl
      _ < (a * 256 + b.val + 1) * 256 ^ bs.length := ih _
      _ ≤ ((a + 1) * 256) * 256 ^ bs.length :=
          Nat.mul_le_mul_right _ h2
      _ = (a + 1) * 256 ^ (b :: bs).length := by
          simp [List.length_cons, pow_succ]; ring

/-- A big-endian byte string of length `k` denotes an integer below
`256 ^ k`. -/
theorem bigIntSetBytes_lt (bs : List Byte) :
    bigIntSetBytes bs < (256 : ℤ) ^ bs.length := by
  have h := foldl_byte_lt bs 0
  simp only [bigIntSetBytes]
  calc ((bs.foldl (fun a b => a * 256 + b.val) 0 : ℕ) : ℤ)
      < ((1 * 256 ^ bs.length : ℕ) : ℤ) := by exact_mod_cast (by simpa using h)
    _ = (256 : ℤ) ^ bs.length := by push_cast; ring

/-- A big-endian byte string denotes a nonnegative integer. -/
theorem bigIntSetBytes_nonneg (bs : List Byte) : 0 ≤ bigIntSetBytes bs :=
  Int.ofNat_nonneg _

/-- C1: for a sequence of n public keys (n ≥ 1), exponent derivation
produces exactly n exponents: a single XOF stream is seeded for exactly
16 * n output bytes and fed the concatenated uncompressed encodings of the
keys in order, exponent i is the big-endian value of output bytes
16 i .. 16 i + 15, and every exponent lies in the interval from 0
(inclusive) to 2 ^ 128 (exclusive). -/
theorem hash_exponents_spec (C : Curves G1 G2 GT) (pubkeys : List G2)
    (_hn : 1 ≤ pubkeys.length) :
    (hashPubKeysToExponents C pubkeys).length = pubkeys.length ∧
    ∀ i (hi : i < (hashPubKeysToExponents C pubkeys).length),
      (hashPubKeysToExponents C pubkeys).get ⟨i, hi⟩ =
        bigIntSetBytes ((List.range 16).map fun j =>
          C.xof (16 * pubkeys.length) ((pubkeys.map C.marshalUncompressed).flatten)
            (16 * i + j)) ∧
      0 ≤ (hashPubKeysToExponents C pubkeys).get ⟨i, hi⟩ ∧
      (hashPubKeysToExponents C pubkeys).get ⟨i, hi⟩ < 2 ^ 128 := by
  refine ⟨by simp [hashPubKeysToExponents], ?_⟩
  intro i hi
  have hval : (hashPubKeysToExponents C pubkeys).get ⟨i, hi⟩ =
      bigIntSetBytes ((List.range 16).map fun j =>
        C.xof (16 * pubkeys.length) ((pubkeys.map C.marshalUncompressed).flatten)
          (16 * i + j)) := by
    simp [hashPubKeysToExponents]
  refine ⟨hval, ?_, ?_⟩
  · rw [hval]; exact bigIntSetBytes_nonneg _
  · rw [hval]
    have h := bigIntSetBytes_lt ((List.range 16).map fun j =>
      C.xof (16 * pubkeys.length) ((pubkeys.map C.marshalUncompressed).flatten)
        (16 * i + j))
    simpa using h.trans_le (by norm_num)

/-- Witness for C1: the theorem applied to a single-key sequence in the
integer model. -/
theorem hash_exponents_spec_witness :
    1 ≤ [(2 : ℤ)].length ∧
      (hashPubKeysToExponents intModel [(2 : ℤ)]).length = [(2 : ℤ)].length :=
  ⟨by decide, (hash_exponents_spec intModel [(2 : ℤ)] (by decide)).1⟩

/-- C5: for equal-length inputs, aggregation returns the group sum of the
pointwise-scaled signatures — signature i scaled by exponent i, the
exponents derived from the public keys — wrapped in `some` (a pure function
of its arguments). -/
theorem aggregate_is_scaled_group_sum (C : Curves G1 G2 GT)
    (sigs : List G1) (pubkeys : List G2)
    (h : sigs.length = pubkeys.length) :
    AggregateSignaturesWithHAE C sigs pubkeys =
      some ((List.zipWith C.mulG1 sigs (hashPubKeysToExponents C pubkeys)).foldr
        C.addG1 C.zeroG1) := by
  simp [AggregateSignaturesWithHAE, AggregateG1, h]

/-- Witness for C5: the theorem applied to one signature and one key in the
integer model, together with the evaluated result. -/
theorem aggregate_is_scaled_group_sum_witness :
    [(2 : ℤ)].length = [(3 : ℤ)].length ∧
      AggregateSignaturesWithHAE intModel [(2 : ℤ)] [(3 : ℤ)] =
        some ((List.zipWith intModel.mulG1 [(2 : ℤ)]
          (hashPubKeysToExponents intModel [(3 : ℤ)])).foldr
            intModel.addG1 intModel.zeroG1) ∧
      AggregateSignaturesWithHAE intModel [(2 : ℤ)] [(3 : ℤ)] = some 0 :=
  ⟨rfl, aggregate_is_scaled_group_sum intModel [(2 : ℤ)] [(3 : ℤ)] rfl, by decide⟩

/-- Models a sequence of calls to `hashPubKeysToExponents` inside one
process: the Go function constructs a fresh XOF instance per call and
touches no package-level variable, so the trace of results is the pointwise
image of the trace of inputs — result i depends only on input i. -/
def hashCallTrace (C : Curves G1 G2 GT) (inputs : List (List G2)) :
    List (List ℤ) :=
  inputs.map (hashPubKeysToExponents C)

/-- C7: exponent derivation is deterministic and free of process-wide
state: in any trace of calls, two calls on identical ordered key sequences
return identical exponent sequences, regardless of their positions in the
trace or of the calls between them. -/
theorem hash_exponents_deterministic (C : Curves G1 G2 GT)
    (inputs : List (List G2)) (i j : ℕ)
    (hi : i < (hashCallTrace C inputs).length)
    (hj : j < (hashCallTrace C inputs).length)
    (hik : i < inputs.length) (hjk : j < inputs.length)
    (h : inputs.get ⟨i, hik⟩ = inputs.get ⟨j, hjk⟩) :
    (hashCallTrace C inputs).get ⟨i, hi⟩ =
      (hashCallTrace C inputs).get ⟨j, hj⟩ := by
  simp only [hashCallTrace, List.get_eq_getElem, List.getElem_map]
  simp only [List.get_eq_getElem] at h
  rw [h]

/-- Witness for C7: a trace of three calls in the integer model, where the
first and third inputs coincide and so do their results. -/
theorem hash_exponents_deterministic_witness :
    (hashCallTrace intModel [[(2 : ℤ)], [(3 : ℤ)], [(2 : ℤ)]]).get
        ⟨0, by decide⟩ =
      (hashCallTrace intModel [[(2 : ℤ)], [(3 : ℤ)], [(2 : ℤ)]]).get
        ⟨2, by decide⟩ :=
  hash_exponents_deterministic intModel [[(2 : ℤ)], [(3 : ℤ)], [(2 : ℤ)]]
    0 2 (by decide) (by decide) (by decide) (by decide) (by decide)

/-- C9: for every input, distinct-message verification
(`VerifyAggregateSignatureWithHAE`) leaves the caller's public-key sequence
unchanged: the scaled keys go into the freshly allocated `newkeys` slice and
the final contents of the caller's `pubkeys` slice equal its initial
contents. -/
theorem verify_aggregate_preserves_callers_keys (C : Curves G1 G2 GT)
    (aggsig : G1) (pubkeys : List G2) (msgs : List (List Byte)) :
    (VerifyAggregateSignatureWithHAE C aggsig pubkeys msgs).2 = pubkeys := rfl

/-- C8: for every input, `VerifyAggregateSignatureWithHAE` returns exactly
the boolean result of the external aggregate-signature verification
primitive applied to the aggregate signature, the pointwise-scaled public
keys (each key scaled by its derived exponent), and the messages; the
return type is `Bool`, so no cryptographic failure is ever an error. -/
theorem verify_aggregate_delegates_scaled_keys (C : Curves G1 G2 GT)
    (aggsig : G1) (pubkeys : List G2) (msgs : List (List Byte)) :
    (VerifyAggregateSignatureWithHAE C aggsig pubkeys msgs).1 =
      verifyAggSig C aggsig
        (List.zipWith C.mulG2 pubkeys (hashPubKeysToExponents C pubkeys))
        msgs true := rfl

/-- C10: `VerifyAggregateSignatureWithHAE` calls the underlying aggregate
verifier with its final flag set to `true`, so for every input — duplicate
messages included — the result is the length/pairing core check and the
duplicate-message rejection branch is never taken. -/
theorem verify_aggregate_allows_duplicate_messages (C : Curves G1 G2 GT)
    (aggsig : G1) (pubkeys : List G2) (msgs : List (List Byte)) :
    (VerifyAggregateSignatureWithHAE C aggsig pubkeys msgs).1 =
      verifyAggSigCore C aggsig
        (List.zipWith C.mulG2 pubkeys (hashPubKeysToExponents C pubkeys))
        msgs := by
  simp [VerifyAggregateSignatureWithHAE, verifyAggSig]

/-- C3: evaluation of the code at the failing input.  In the integer model,
with one public key `2` whose derived exponent is `0`, the shared-message
verification overwrites the caller's key sequence with the scaled keys: the
final contents of the caller's slice are `[0]`, not the original `[2]`.
This contradicts the claim that the caller's public-key sequence is left
unchanged. -/
theorem verifyMulti_mutates_callers_keys :
    (VerifyMultiSignatureWithHAE intModel 0 [(2 : ℤ)] []).2 ≠ [(2 : ℤ)] := by
  decide

/-- C4 counterexample: on mismatched lengths (2 signatures, 1 public key),
aggregation returns `none` — the embedding of Go's `nil` `Point1` — and not
a value of any explicit error type: the return type `Option G1` has no
error constructor, so no `LengthMismatch` error is produced. -/
theorem aggregate_length_mismatch_nil_not_error :
    AggregateSignaturesWithHAE intModel [(1 : ℤ), 2] [(5 : ℤ)] = none := by
  decide

/-- C4 (amended): for every pair of input sequences with differing lengths,
aggregation returns the nil (absent) result immediately — uniformly in the
curve operations, so no exponent derivation, scalar multiplication or group
aggregation contributes — and never a crash or a non-empty aggregate. -/
theorem aggregate_length_mismatch_returns_none (C : Curves G1 G2 GT)
    (sigs : List G1) (pubkeys : List G2)
    (h : sigs.length ≠ pubkeys.length) :
    AggregateSignaturesWithHAE C sigs pubkeys = none := by
  simp [AggregateSignaturesWithHAE, fun a => (Ne.symm h : pubkeys.length ≠ sigs.length) a]

/-- Witness for C4: the amended theorem applied at a concrete mismatched
input. -/
theorem aggregate_length_mismatch_returns_none_witness :
    AggregateSignaturesWithHAE intModel [(1 : ℤ), 2] [(5 : ℤ)] = none :=
  aggregate_length_mismatch_returns_none intModel [(1 : ℤ), 2] [(5 : ℤ)]
    (by decide)

/-- C6 counterexample: on the empty public-key sequence, exponent derivation
returns the empty exponent sequence as its ordinary result; the return type
`List ℤ` has no error constructor, so the empty result is indistinguishable
from success and no `EmptyInput` error is produced. -/
theorem hash_exponents_empty_input_returns_empty :
    hashPubKeysToExponents intModel [] = ([] : List ℤ) := rfl

/-- C6 (amended): on a zero-length public-key sequence, exponent derivation
silently returns the empty exponent sequence as a success value, for every
instantiation of the collaborators; there is no explicit `EmptyInput`
error. -/
theorem hash_exponents_empty_input_silent (C : Curves G1 G2 GT) :
    hashPubKeysToExponents C [] = ([] : List ℤ) := rfl

/-- Exponent derivation is length-preserving. -/
theorem length_hashPubKeysToExponents (C : Curves G1 G2 GT)
    (pubkeys : List G2) :
    (hashPubKeysToExponents C pubkeys).length = pubkeys.length := by
  simp [hashPubKeysToExponents]

/-- The pairing sends a `G1` sum to the `GT` product of the pairings, fold
by fold. -/
theorem pair_foldr_addG1 {C : Curves G1 G2 GT} (hC : CurvesOk C)
    (l : List G1) (q : G2) :
    C.pair (l.foldr C.addG1 C.zeroG1) q =
      (l.map fun p => C.pair p q).foldr C.mulGT C.oneGT := by
  induction l with
  | nil => simpa using hC.pair_zeroG1 q
  | cons p l ih => simp [hC.pair_addG1, ih]

/-- C2: round-trip correctness.  For n ≥ 1 key pairs, n distinct messages
and n signatures each valid under plain BLS for its (key, message) pair —
validity being the per-signature pairing equation — the aggregate produced
by `AggregateSignaturesWithHAE` is accepted by
`VerifyAggregateSignatureWithHAE` on the same index-aligned key sequence,
for every collaborator instantiation satisfying the bilinearity laws. -/
theorem hae_round_trip (C : Curves G1 G2 GT) (hC : CurvesOk C)
    (sigs : List G1) (pubkeys : List G2) (msgs : List (List Byte))
    (_hn : 1 ≤ pubkeys.length)
    (hs : sigs.length = pubkeys.length)
    (hm : msgs.length = pubkeys.length)
    (_hnd : msgs.Nodup)
    (hvalid : ∀ i (h1 : i < sigs.length) (h2 : i < msgs.length)
      (h3 : i < pubkeys.length),
      C.pair (sigs.get ⟨i, h1⟩) C.g2gen =
        C.pair (C.hashToG1 (msgs.get ⟨i, h2⟩)) (pubkeys.get ⟨i, h3⟩))
    (agg : G1)
    (hagg : AggregateSignaturesWithHAE C sigs pubkeys = some agg) :
    (VerifyAggregateSignatureWithHAE C agg pubkeys msgs).1 = true := by
  have ht : (hashPubKeysToExponents C pubkeys).length = pubkeys.length :=
    length_hashPubKeysToExponents C pubkeys
  set t := hashPubKeysToExponents C pubkeys with htdef
  have hagg2 : agg = (List.zipWith C.mulG1 sigs t).foldr C.addG1 C.zeroG1 := by
    simp [AggregateSignaturesWithHAE, AggregateG1, hs, ← htdef] at hagg
    exact hagg.symm
  have hlen : (List.zipWith C.mulG2 pubkeys t).length = msgs.length := by
    simp [List.length_zipWith, ht, hm]
  show verifyAggSig C agg (List.zipWith C.mulG2 pubkeys t) msgs true = true
  rw [verifyAggSig]
  simp only [Bool.not_true, Bool.false_and, Bool.false_eq_true, if_false]
  rw [verifyAggSigCore, if_pos hlen, hC.eqGT_iff]
  rw [hagg2, pair_foldr_addG1 hC]
  congr 1
  apply List.ext_getElem
  · simp [List.length_zipWith, ht, hs, hm]
  · intro i hL hR
    have hi : i < pubkeys.length := by
      simpa [List.length_zipWith, ht, hs] using hL
    have hisig : i < sigs.length := by omega
    have himsg : i < msgs.length := by omega
    have hit : i < t.length := by omega
    simp only [List.getElem_map, List.getElem_zipWith]
    rw [hC.pair_mulG1, hC.pair_mulG2]
    have hv := hvalid i hisig himsg hi
    simp only [List.get_eq_getElem] at hv
    rw [hv]

/-- Witness for C2: one signer in the integer model.  The secret key is 2,
so the public key (its discrete log) is 2 and the signature on the message
hashing to the `G1` generator is 2; the derived exponent is 0, hence the
aggregate is 0, and verification accepts it. -/
theorem hae_round_trip_witness :
    (VerifyAggregateSignatureWithHAE intModel 0 [(2 : ℤ)]
      [[(0 : Byte)]]).1 = true :=
  hae_round_trip intModel intModelOk [(2 : ℤ)] [(2 : ℤ)] [[(0 : Byte)]]
    (by decide) rfl rfl (by decide)
    (fun i h1 _ _ => by
      have hi : i = 0 := Nat.lt_one_iff.mp h1
      subst hi
      show (2 : ℤ) * 1 = 1 * 2
      norm_num)
    0 (by decide)

end Bgls
